import Mathlib

/-!
Shallow embedding of `src/pipeline/run_pipeline.py`, a batch recommendation
pipeline: fetch eligible user events, aggregate them into per-(user, item)
scores with a fixed weight table, rank items per user, truncate to TOP_K,
enrich with product metadata by a left join, and write the result to the
`recommendations` table with `to_sql(if_exists="replace")`, optionally
sending a summary email afterwards.

Row order conventions follow pandas: `groupby` with the default `sort=True`
emits one row per distinct key in ascending key order; `rank(method="first",
ascending=False)` ranks by descending value, breaking ties by row position;
`merge(how="left")` keeps left order and enumerates right matches in right
order.
-/

/-- constant `MODEL_VERSION` of the script. -/
def MODEL_VERSION : String := "v1_weighted_events"

/-- constant `TOP_K` of the script. -/
def TOP_K : Nat := 10

/-- a raw row of the `user_events` table, before the SQL `WHERE` filter.
`user_id` is nullable; `object_id` is untyped at the source and kept as a
string. -/
structure Event where
  user_id : Option Int
  event_type : String
  object_id : String
  object_type : String
deriving DecidableEq, Repr

/-- a row of `events_df` as fetched by STEP 1 (after the SQL filter). -/
structure EventRow where
  user_id : Int
  event_type : String
  object_id : String
deriving DecidableEq, Repr

/-- STEP 1 fetch: `SELECT user_id, event_type, object_id FROM user_events
WHERE user_id IS NOT NULL AND object_type = 'product'`. -/
def fetchEvents (evs : List Event) : List EventRow :=
  evs.filterMap (fun e =>
    if e.object_type = "product" then
      e.user_id.map (fun u => ⟨u, e.event_type, e.object_id⟩)
    else none)

/-- the `EVENT_WEIGHTS` dict of the script. -/
def EVENT_WEIGHTS (t : String) : Option Int :=
  if t = "view_product" then some 1
  else if t = "add_to_cart" then some 3
  else if t = "checkout" then some 5
  else if t = "remove_from_cart" then some (-2)
  else none

/-- weight lookup `events_df["event_type"].map(EVENT_WEIGHTS).fillna(0)`:
unknown event types get weight 0. -/
def weightOf (t : String) : Int := (EVENT_WEIGHTS t).getD 0

/-- ascending order on groupby keys `(user_id, object_id)`; strings are
compared lexicographically by code point, as pandas compares Python
strings. -/
def keyLE (a b : Int × String) : Prop :=
  a.1 < b.1 ∨ (a.1 = b.1 ∧ a.2.data ≤ b.2.data)

instance : DecidableRel keyLE := fun a b =>
  inferInstanceAs (Decidable (a.1 < b.1 ∨ (a.1 = b.1 ∧ a.2.data ≤ b.2.data)))

instance : IsTotal (Int × String) keyLE where
  total a b := by
    rcases lt_trichotomy a.1 b.1 with h | h | h
    · exact Or.inl (Or.inl h)
    · rcases le_total a.2.data b.2.data with h2 | h2
      · exact Or.inl (Or.inr ⟨h, h2⟩)
      · exact Or.inr (Or.inr ⟨h.symm, h2⟩)
    · exact Or.inr (Or.inl h)

instance : IsTrans (Int × String) keyLE where
  trans a b c hab hbc := by
    rcases hab with h | ⟨h, h2⟩
    · rcases hbc with h' | ⟨h', h2'⟩
      · exact Or.inl (h.trans h')
      · exact Or.inl (h' ▸ h)
    · rcases hbc with h' | ⟨h', h2'⟩
      · exact Or.inl (h ▸ h')
      · exact Or.inr ⟨h.trans h', h2.trans h2'⟩

instance : IsAntisymm (Int × String) keyLE where
  antisymm a b hab hba := by
    rcases hab with h | ⟨h, h2⟩
    · rcases hba with h' | ⟨h', h2'⟩
      · exact absurd (h.trans h') (lt_irrefl _)
      · exact absurd h (h' ▸ lt_irrefl _)
    · rcases hba with h' | ⟨h', h2'⟩
      · exact absurd h' (h ▸ lt_irrefl _)
      · exact Prod.ext h (String.ext (le_antisymm h2 h2'))

/-- a row of `features_df` right after the groupby (STEP 2), before the
`product_id` coercion; `object_id` is the raw key renamed to `product_id`. -/
structure FeatureRow where
  user_id : Int
  object_id : String
  weight : Int
deriving DecidableEq, Repr

/-- the groupby key of an event row. -/
def rowKey (r : EventRow) : Int × String := (r.user_id, r.object_id)

/-- the distinct `(user_id, object_id)` keys in ascending order, as pandas
`groupby(["user_id", "object_id"])` with the default `sort=True` emits
them. -/
def groupKeys (rows : List EventRow) : List (Int × String) :=
  List.insertionSort keyLE (rows.map rowKey).dedup

/-- the summed weight of all rows with a given key. -/
def sumWeights (rows : List EventRow) (k : Int × String) : Int :=
  ((rows.filter (fun r => rowKey r = k)).map (fun r => weightOf r.event_type)).sum

/-- STEP 2 groupby-sum: `events_df.groupby(["user_id", "object_id"])["weight"]
.sum().reset_index()`. -/
def aggregate (rows : List EventRow) : List FeatureRow :=
  (groupKeys rows).map (fun k => ⟨k.1, k.2, sumWeights rows k⟩)

/-- digits to a natural number. -/
def parseNatDigits (cs : List Char) : Nat :=
  cs.foldl (fun a c => a * 10 + (c.toNat - 48)) 0

/-- coercion `pd.to_numeric(errors="coerce")` followed by `astype(int)`, modelled on
plain decimal literals: optional surrounding whitespace, optional sign,
integer digits with an optional fractional part that `astype(int)` truncates
toward zero; anything else coerces to NaN, and the row is dropped by
`dropna`. -/
def toNumeric (s : String) : Option Int :=
  let cs := (s.data.dropWhile (fun c => c.isWhitespace)).reverse.dropWhile
    (fun c => c.isWhitespace) |>.reverse
  let sc :=
    match cs with
    | '-' :: rest => (true, rest)
    | '+' :: rest => (false, rest)
    | l => (false, l)
  let ip := sc.2.takeWhile (fun c => c ≠ '.')
  let rest := sc.2.dropWhile (fun c => c ≠ '.')
  let ok :=
    match rest with
    | [] => !ip.isEmpty && ip.all (fun c => c.isDigit)
    | _ :: frac =>
        ip.all (fun c => c.isDigit) && frac.all (fun c => c.isDigit) &&
          (!ip.isEmpty || !frac.isEmpty)
  if ok then
    let v : Int := Int.ofNat (parseNatDigits ip)
    some (if sc.1 then -v else v)
  else none

/-- a row of `features_df` after coercion, dropna and `astype(int)`. -/
structure CleanRow where
  user_id : Int
  product_id : Int
  weight : Int
deriving DecidableEq, Repr, Inhabited

/-- the `product_id` coercion block of STEP 2: coerce, drop failures, cast to
int; row order is preserved. -/
def cleanRowsOf (fs : List FeatureRow) : List CleanRow :=
  fs.filterMap (fun r =>
    (toNumeric r.object_id).map (fun pid => ⟨r.user_id, pid, r.weight⟩))

/-- field access at a row position. -/
def userAt (clean : List CleanRow) (i : Nat) : Int := (clean.getD i default).user_id

/-- field access at a row position. -/
def weightAt (clean : List CleanRow) (i : Nat) : Int := (clean.getD i default).weight

/-- field access at a row position. -/
def pidAt (clean : List CleanRow) (i : Nat) : Int := (clean.getD i default).product_id

/-- STEP 3: `features_df.groupby("user_id")["weight"].rank(method="first",
ascending=False)`. The rank of row `i` is the number of rows `j` of the same
user whose weight is strictly larger, or equal with position `j ≤ i`. -/
def rankOf (clean : List CleanRow) (i : Nat) : Nat :=
  ((Finset.range clean.length).filter (fun j =>
    userAt clean j = userAt clean i ∧
      (weightAt clean i < weightAt clean j ∨
        (weightAt clean j = weightAt clean i ∧ j ≤ i)))).card

/-- the positions of a user's rows in the clean feature table. -/
def userGroup (clean : List CleanRow) (u : Int) : Finset Nat :=
  (Finset.range clean.length).filter (fun i => userAt clean i = u)

/-- a row of `features_df` with its `rank` column. -/
structure RankedRow where
  user_id : Int
  product_id : Int
  weight : Int
  rank : Nat
deriving DecidableEq, Repr, Inhabited

/-- the feature table with the rank column attached, in unchanged row
order. -/
def rankRows (clean : List CleanRow) : List RankedRow :=
  (List.range clean.length).map (fun i =>
    ⟨userAt clean i, pidAt clean i, weightAt clean i, rankOf clean i⟩)

/-- truncation `ranked_df = features_df[features_df["rank"] <= TOP_K]`. -/
def truncate (rs : List RankedRow) : List RankedRow :=
  rs.filter (fun r => r.rank ≤ TOP_K)

/-- STEP 1 + STEP 2 up to the groupby. -/
def featuresOf (evs : List Event) : List FeatureRow := aggregate (fetchEvents evs)

/-- the clean feature table of a run. -/
def cleanOf (evs : List Event) : List CleanRow := cleanRowsOf (featuresOf evs)

/-- the ranked table of a run. -/
def rankedOf (evs : List Event) : List RankedRow := rankRows (cleanOf evs)

/-- the truncated (emitted) ranked table of a run. -/
def emittedOf (evs : List Event) : List RankedRow := truncate (rankedOf evs)

/-- a row of the `products` table. -/
structure Product where
  id : Int
  name : String
  category : String
  price : Int
deriving DecidableEq, Repr

/-- a row of `final_df`, the shape persisted to `recommendations`; metadata
fields are null when the left join found no product. `created_at` is the
single run timestamp. -/
structure RecoRow where
  user_id : Int
  product_id : Int
  weight : Int
  rank : Nat
  name : Option String
  category : Option String
  price : Option Int
  model_version : String
  created_at : Nat
deriving DecidableEq, Repr

/-- STEP 4 for one ranked row: `ranked_df.merge(products_df,
left_on="product_id", right_on="id", how="left")` keeps the row once with
null metadata when no product matches, and once per matching product row
otherwise, stamped with `MODEL_VERSION` and the run timestamp. -/
def enrichRow (r : RankedRow) (products : List Product) (t : Nat) : List RecoRow :=
  let ms := products.filter (fun p => p.id = r.product_id)
  if ms.isEmpty then
    [⟨r.user_id, r.product_id, r.weight, r.rank, none, none, none, MODEL_VERSION, t⟩]
  else
    ms.map (fun p =>
      ⟨r.user_id, r.product_id, r.weight, r.rank, some p.name, some p.category,
        some p.price, MODEL_VERSION, t⟩)

/-- the left-merged, stamped output `final_df` of a run. -/
def finalOf (evs : List Event) (products : List Product) (t : Nat) : List RecoRow :=
  (emittedOf evs).flatMap (fun r => enrichRow r products t)

/-- STEP 5: `final_df.to_sql("recommendations", reco_engine,
if_exists="replace", index=False)` — the existing table is dropped and
recreated, so the post-write store is exactly `final_df`, whatever the
pre-write store held. -/
def publishRun (store : List RecoRow) (evs : List Event) (products : List Product)
    (t : Nat) : List RecoRow :=
  let _ := store
  finalOf evs products t

/-- outcome of a whole script run: the store state on normal exit, or the
store state at the point an uncaught exception terminated the script. -/
inductive RunResult where
  | ok : List RecoRow → RunResult
  | failed : List RecoRow → RunResult
deriving DecidableEq, Repr

/-- the recommendations store state a run result leaves behind. -/
def storeAfter : RunResult → List RecoRow
  | .ok s => s
  | .failed s => s

/-- STEP 5 then STEP 6 of the script: write the recommendations, then, when
mail credentials are configured, send the summary email. The SMTP block has
no exception handler, so a mail failure (`mailOk = false`) propagates and
terminates the script after the write. -/
def runPipeline (store : List RecoRow) (evs : List Event) (products : List Product)
    (t : Nat) (creds : Bool) (mailOk : Bool) : RunResult :=
  let written := publishRun store evs products t
  if creds && !mailOk then .failed written else .ok written

/-! ### Structure of the aggregated feature table -/

theorem groupKeys_perm (rows : List EventRow) :
    (groupKeys rows).Perm (rows.map rowKey).dedup :=
  List.perm_insertionSort keyLE _

theorem groupKeys_nodup (rows : List EventRow) : (groupKeys rows).Nodup :=
  (groupKeys_perm rows).nodup_iff.2 (List.nodup_dedup _)

theorem mem_groupKeys {rows : List EventRow} {k : Int × String} :
    k ∈ groupKeys rows ↔ k ∈ rows.map rowKey := by
  rw [(groupKeys_perm rows).mem_iff, List.mem_dedup]

theorem filter_eq_of_nodup {α : Type} [DecidableEq α] {l : List α} (hl : l.Nodup)
    (k : α) : l.filter (fun x => x = k) = if k ∈ l then [k] else [] := by
  induction l with
  | nil => simp
  | cons a l ih =>
      rw [List.filter_cons]
      have hl' := List.nodup_cons.1 hl
      by_cases hak : a = k
      · subst hak
        have hfil : l.filter (fun x => x = a) = [] := by
          rw [List.filter_eq_nil_iff]
          intro x hx
          simp only [decide_eq_true_eq]
          intro hxa
          exact hl'.1 (hxa ▸ hx)
        simp [hfil, ih hl'.2, List.mem_cons, hl'.1]
      · have hmc : (k ∈ a :: l) = (k ∈ l) := by
          simp [List.mem_cons, Ne.symm hak]
        simp only [decide_eq_true_eq, hak, if_false, ih hl'.2, hmc]

/-- the single aggregated row for a key, characterised: the feature table has
exactly one row per key that occurs among the fetched events, carrying the
summed weight, and no row for a key that does not occur. -/
theorem featuresOf_filter_key (evs : List Event) (u : Int) (oid : String) :
    (featuresOf evs).filter (fun r => r.user_id = u ∧ r.object_id = oid) =
      if (fetchEvents evs).any (fun r => r.user_id = u ∧ r.object_id = oid) then
        [⟨u, oid,
          (((fetchEvents evs).filter (fun r => r.user_id = u ∧ r.object_id = oid)).map
            (fun r => weightOf r.event_type)).sum⟩]
      else [] := by
  unfold featuresOf aggregate
  rw [List.filter_map]
  have hpred : ∀ k ∈ groupKeys (fetchEvents evs),
      ((fun r : FeatureRow => decide (r.user_id = u ∧ r.object_id = oid)) ∘
        (fun k : Int × String => (⟨k.1, k.2, sumWeights (fetchEvents evs) k⟩ : FeatureRow))) k
        = decide (k = (u, oid)) := by
    intro k _
    simp [Prod.ext_iff]
  rw [List.filter_congr hpred,
    filter_eq_of_nodup (groupKeys_nodup (fetchEvents evs)) (u, oid)]
  have hmem : (u, oid) ∈ groupKeys (fetchEvents evs) ↔
      (fetchEvents evs).any (fun r => r.user_id = u ∧ r.object_id = oid) = true := by
    rw [mem_groupKeys, List.mem_map, List.any_eq_true]
    constructor
    · rintro ⟨r, hr, hk⟩
      refine ⟨r, hr, ?_⟩
      simp only [rowKey, Prod.mk.injEq] at hk
      simp [hk.1, hk.2]
    · rintro ⟨r, hr, hk⟩
      simp only [decide_eq_true_eq] at hk
      exact ⟨r, hr, by simp [rowKey, hk.1, hk.2]⟩
  have hsum : sumWeights (fetchEvents evs) (u, oid) =
      (((fetchEvents evs).filter (fun r => r.user_id = u ∧ r.object_id = oid)).map
        (fun r => weightOf r.event_type)).sum := by
    unfold sumWeights
    congr 1
    apply congrArg
    apply List.filter_congr
    intro r _
    simp [rowKey, Prod.ext_iff]
  by_cases h : (fetchEvents evs).any (fun r => r.user_id = u ∧ r.object_id = oid) = true
  · rw [if_pos (hmem.2 h), if_pos h, List.map_cons, List.map_nil, hsum]
  · rw [if_neg (fun hc => h (hmem.1 hc)), if_neg h, List.map_nil]

/-- Claim C3: the aggregator produces exactly one row per distinct
(user, object) pair among the fetched eligible events, and its score is the
sum of the fixed weights of all eligible events for that pair, unknown event
types contributing 0 through `weightOf`. -/
theorem C3_score_additivity (evs : List Event) (u : Int) (oid : String) :
    (featuresOf evs).filter (fun r => r.user_id = u ∧ r.object_id = oid) =
      if (fetchEvents evs).any (fun r => r.user_id = u ∧ r.object_id = oid) then
        [⟨u, oid,
          (((fetchEvents evs).filter (fun r => r.user_id = u ∧ r.object_id = oid)).map
            (fun r => weightOf r.event_type)).sum⟩]
      else [] :=
  featuresOf_filter_key evs u oid

/-- Claim C7 (counterexample): two events whose distinct raw object ids "5"
and "05" both coerce to the integer item 5 yield two ScoredPair rows for the
coerced pair (1, 5), so the post-coercion table is not unique per
(user_id, item_id). -/
theorem C7_counterexample :
    (cleanOf [⟨some 1, "view_product", "5", "product"⟩,
        ⟨some 1, "view_product", "05", "product"⟩]).countP
      (fun r => r.user_id = 1 ∧ r.product_id = 5) = 2 := by decide

/-- Claim C7 (amended): uniqueness holds one step earlier, keyed by the raw
object id: the aggregated table has at most one row per
(user_id, raw object_id); only the later integer coercion can collapse
distinct raw ids onto the same item identifier. -/
theorem C7_amended_raw_key_unique (evs : List Event) (u : Int) (oid : String) :
    (featuresOf evs).countP (fun r => r.user_id = u ∧ r.object_id = oid) ≤ 1 := by
  rw [List.countP_eq_length_filter, featuresOf_filter_key evs u oid]
  split <;> simp

/-! ### Order independence of a run -/

theorem fetchEvents_perm {e1 e2 : List Event} (h : e1.Perm e2) :
    (fetchEvents e1).Perm (fetchEvents e2) := h.filterMap _

theorem groupKeys_eq_of_perm {r1 r2 : List EventRow} (h : r1.Perm r2) :
    groupKeys r1 = groupKeys r2 :=
  List.eq_of_perm_of_sorted
    (((List.perm_insertionSort keyLE _).trans ((h.map rowKey).dedup)).trans
      (List.perm_insertionSort keyLE _).symm)
    (List.sorted_insertionSort keyLE _) (List.sorted_insertionSort keyLE _)

theorem sumWeights_eq_of_perm {r1 r2 : List EventRow} (h : r1.Perm r2) :
    sumWeights r1 = sumWeights r2 := by
  funext k
  exact ((h.filter _).map _).sum_eq

theorem aggregate_eq_of_perm {r1 r2 : List EventRow} (h : r1.Perm r2) :
    aggregate r1 = aggregate r2 := by
  unfold aggregate
  rw [groupKeys_eq_of_perm h, sumWeights_eq_of_perm h]

theorem featuresOf_eq_of_perm {e1 e2 : List Event} (h : e1.Perm e2) :
    featuresOf e1 = featuresOf e2 :=
  aggregate_eq_of_perm (fetchEvents_perm h)

/-- Claim C6: a run is a pure function of the multiset of events — permuting
the event input changes neither the emitted RankedPair table (scores, ranks
and row order included) nor the published output. -/
theorem C6_determinism (e1 e2 : List Event) (products : List Product) (t : Nat)
    (h : e1.Perm e2) :
    emittedOf e1 = emittedOf e2 ∧ finalOf e1 products t = finalOf e2 products t := by
  have he : emittedOf e1 = emittedOf e2 := by
    unfold emittedOf rankedOf cleanOf
    rw [featuresOf_eq_of_perm h]
  exact ⟨he, by unfold finalOf; rw [he]⟩

/-- Claim C6 (witness): the permutation hypothesis discharged on a concrete
two-event reordering. -/
theorem C6_determinism_witness :
    emittedOf [⟨some 1, "view_product", "5", "product"⟩,
        ⟨some 1, "checkout", "7", "product"⟩] =
      emittedOf [⟨some 1, "checkout", "7", "product"⟩,
        ⟨some 1, "view_product", "5", "product"⟩] ∧
    finalOf [⟨some 1, "view_product", "5", "product"⟩,
        ⟨some 1, "checkout", "7", "product"⟩] [⟨5, "A", "c", 9⟩] 0 =
      finalOf [⟨some 1, "checkout", "7", "product"⟩,
        ⟨some 1, "view_product", "5", "product"⟩] [⟨5, "A", "c", 9⟩] 0 :=
  ⟨(C6_determinism _ _ [⟨5, "A", "c", 9⟩] 0 (by decide)).1,
   (C6_determinism _ _ [⟨5, "A", "c", 9⟩] 0 (by decide)).2⟩

/-! ### The rank column -/


theorem mem_userGroup {clean : List CleanRow} {u : Int} {i : Nat} :
    i ∈ userGroup clean u ↔ i < clean.length ∧ userAt clean i = u := by
  simp [userGroup]

theorem rankOf_eq_group (clean : List CleanRow) (i : Nat) :
    rankOf clean i =
      ((userGroup clean (userAt clean i)).filter (fun j =>
        weightAt clean i < weightAt clean j ∨
          (weightAt clean j = weightAt clean i ∧ j ≤ i))).card := by
  unfold rankOf userGroup
  rw [Finset.filter_filter]

theorem rankOf_pos (clean : List CleanRow) (i : Nat) (hi : i < clean.length) :
    1 ≤ rankOf clean i := by
  refine Finset.card_pos.2 ⟨i, ?_⟩
  simp [rankOf, Finset.mem_filter, Finset.mem_range, hi]

theorem rankOf_le_group_card (clean : List CleanRow) (i : Nat) :
    rankOf clean i ≤ (userGroup clean (userAt clean i)).card := by
  rw [rankOf_eq_group]
  exact Finset.card_filter_le _ _

theorem rankOf_lt_rankOf (clean : List CleanRow) {i j : Nat} (hi : i < clean.length)
    (hj : j < clean.length) (huser : userAt clean i = userAt clean j)
    (hstrict : weightAt clean j < weightAt clean i ∨
      (weightAt clean i = weightAt clean j ∧ i < j)) :
    rankOf clean i < rankOf clean j := by
  rw [rankOf_eq_group clean i, rankOf_eq_group clean j, ← huser]
  have hsub : (userGroup clean (userAt clean i)).filter (fun x =>
        weightAt clean i < weightAt clean x ∨
          (weightAt clean x = weightAt clean i ∧ x ≤ i)) ⊆
      (userGroup clean (userAt clean i)).filter (fun x =>
        weightAt clean j < weightAt clean x ∨
          (weightAt clean x = weightAt clean j ∧ x ≤ j)) := by
    intro x hx
    rw [Finset.mem_filter] at hx ⊢
    refine ⟨hx.1, ?_⟩
    rcases hx.2 with hgt | ⟨heq, hle⟩ <;> rcases hstrict with hw | ⟨hw, hij⟩
    · exact Or.inl (by omega)
    · exact Or.inl (by omega)
    · exact Or.inl (by omega)
    · exact Or.inr ⟨by omega, by omega⟩
  have hjB : j ∈ (userGroup clean (userAt clean i)).filter (fun x =>
      weightAt clean j < weightAt clean x ∨
        (weightAt clean x = weightAt clean j ∧ x ≤ j)) :=
    Finset.mem_filter.2 ⟨mem_userGroup.2 ⟨hj, huser.symm⟩, Or.inr ⟨rfl, le_refl j⟩⟩
  have hjA : j ∉ (userGroup clean (userAt clean i)).filter (fun x =>
      weightAt clean i < weightAt clean x ∨
        (weightAt clean x = weightAt clean i ∧ x ≤ i)) := by
    intro hjA
    obtain ⟨-, hXi⟩ := Finset.mem_filter.1 hjA
    rcases hXi with hgt | ⟨heq, hle⟩ <;> rcases hstrict with hw | ⟨hw, hij⟩ <;> omega
  exact Finset.card_lt_card ((Finset.ssubset_iff_of_subset hsub).2 ⟨j, hjB, hjA⟩)

theorem rankOf_ne (clean : List CleanRow) {i j : Nat} (hi : i < clean.length)
    (hj : j < clean.length) (huser : userAt clean i = userAt clean j)
    (hne : i ≠ j) : rankOf clean i ≠ rankOf clean j := by
  rcases lt_trichotomy (weightAt clean i) (weightAt clean j) with hw | hw | hw
  · exact (rankOf_lt_rankOf clean hj hi huser.symm (Or.inl hw)).ne'
  · rcases hne.lt_or_lt with hij | hij
    · exact (rankOf_lt_rankOf clean hi hj huser (Or.inr ⟨hw, hij⟩)).ne
    · exact (rankOf_lt_rankOf clean hj hi huser.symm (Or.inr ⟨hw.symm, hij⟩)).ne'
  · exact (rankOf_lt_rankOf clean hi hj huser (Or.inl hw)).ne

theorem image_rankOf (clean : List CleanRow) (u : Int) :
    (userGroup clean u).image (rankOf clean) = Finset.Icc 1 (userGroup clean u).card := by
  have hinj : Set.InjOn (rankOf clean) (userGroup clean u) := by
    intro a ha b hb hab
    have ha' := mem_userGroup.1 (Finset.mem_coe.1 ha)
    have hb' := mem_userGroup.1 (Finset.mem_coe.1 hb)
    by_contra hne
    exact rankOf_ne clean ha'.1 hb'.1 (ha'.2.trans hb'.2.symm) hne hab
  apply Finset.eq_of_subset_of_card_le
  · intro k hk
    obtain ⟨i, hi, rfl⟩ := Finset.mem_image.1 hk
    have hi' := mem_userGroup.1 hi
    rw [Finset.mem_Icc]
    refine ⟨rankOf_pos clean i hi'.1, ?_⟩
    have hle := rankOf_le_group_card clean i
    rwa [hi'.2] at hle
  · rw [Nat.card_Icc, Finset.card_image_of_injOn hinj]
    omega

theorem group_count_rank (clean : List CleanRow) (u : Int) (k : Nat) :
    ((userGroup clean u).filter (fun i => rankOf clean i = k)).card =
      if 1 ≤ k ∧ k ≤ (userGroup clean u).card then 1 else 0 := by
  by_cases hk : 1 ≤ k ∧ k ≤ (userGroup clean u).card
  · rw [if_pos hk]
    have hkim : k ∈ (userGroup clean u).image (rankOf clean) := by
      rw [image_rankOf]
      exact Finset.mem_Icc.2 hk
    obtain ⟨i, hi, hik⟩ := Finset.mem_image.1 hkim
    apply le_antisymm
    · rw [Finset.card_le_one]
      intro a ha b hb
      have ha' := Finset.mem_filter.1 ha
      have hb' := Finset.mem_filter.1 hb
      have hau := mem_userGroup.1 ha'.1
      have hbu := mem_userGroup.1 hb'.1
      by_contra hne
      exact rankOf_ne clean hau.1 hbu.1 (hau.2.trans hbu.2.symm) hne
        (ha'.2.trans hb'.2.symm)
    · exact Finset.card_pos.2 ⟨i, Finset.mem_filter.2 ⟨hi, hik⟩⟩
  · rw [if_neg hk, Finset.card_eq_zero, Finset.filter_eq_empty_iff]
    intro i hi hik
    apply hk
    have hkim : k ∈ (userGroup clean u).image (rankOf clean) :=
      Finset.mem_image.2 ⟨i, hi, hik⟩
    rw [image_rankOf, Finset.mem_Icc] at hkim
    exact hkim

theorem group_count_rank_trunc (clean : List CleanRow) (u : Int) (k : Nat) :
    ((userGroup clean u).filter (fun i =>
        rankOf clean i ≤ TOP_K ∧ rankOf clean i = k)).card =
      if 1 ≤ k ∧ k ≤ min (userGroup clean u).card TOP_K then 1 else 0 := by
  by_cases hk : k ≤ TOP_K
  · have hcongr : ∀ i ∈ userGroup clean u,
        ((rankOf clean i ≤ TOP_K ∧ rankOf clean i = k) ↔ rankOf clean i = k) := by
      intro i _
      constructor
      · exact And.right
      · intro h
        exact ⟨h.trans_le hk, h⟩
    rw [Finset.filter_congr hcongr, group_count_rank]
    have hiff : (1 ≤ k ∧ k ≤ (userGroup clean u).card) ↔
        (1 ≤ k ∧ k ≤ min (userGroup clean u).card TOP_K) := by
      constructor
      · rintro ⟨h1, h2⟩
        exact ⟨h1, le_min h2 hk⟩
      · rintro ⟨h1, h2⟩
        exact ⟨h1, h2.trans (min_le_left _ _)⟩
    rw [if_congr hiff rfl rfl]
  · have hempty : ((userGroup clean u).filter (fun i =>
        rankOf clean i ≤ TOP_K ∧ rankOf clean i = k)).card = 0 := by
      rw [Finset.card_eq_zero, Finset.filter_eq_empty_iff]
      rintro i - ⟨h1, h2⟩
      exact hk (h2.symm.trans_le h1)
    rw [hempty, if_neg]
    rintro ⟨-, h2⟩
    exact hk (h2.trans (min_le_right _ _))

theorem countP_range_card (p : Nat → Bool) (n : Nat) :
    (List.range n).countP p = ((Finset.range n).filter (fun i => p i = true)).card := by
  induction n with
  | zero => simp
  | succ m ih =>
      rw [Finset.range_succ, List.range_succ, Finset.filter_insert]
      by_cases h : p m = true
      · rw [if_pos h, Finset.card_insert_of_not_mem (by simp)]
        simp [List.countP_append, h, ih]
      · rw [if_neg h]
        simp [List.countP_append, h, ih]

theorem map_getD_range (l : List CleanRow) :
    (List.range l.length).map (fun i => l.getD i default) = l := by
  induction l with
  | nil => simp
  | cons a l ih =>
      rw [List.length_cons, List.range_succ_eq_map, List.map_cons, List.map_map]
      have hcomp : ((fun i => (a :: l).getD i default) ∘ Nat.succ) =
          (fun i => l.getD i default) := by
        funext i
        rfl
      rw [hcomp, ih]
      rfl

/-- Claim C5: for every user, the number of emitted rows carrying rank k is
exactly one when 1 ≤ k ≤ min(N, TOP_K) — N being the user's number of scored
rows — and zero otherwise: emitted ranks are the contiguous range
1..min(N, TOP_K) with no gaps and no repeats, hence no user exceeds TOP_K
rows and users under TOP_K keep all rows. -/
theorem C5_rank_contiguity (evs : List Event) (u : Int) (k : Nat) :
    (emittedOf evs).countP (fun r => r.user_id = u ∧ r.rank = k) =
      if 1 ≤ k ∧ k ≤ min ((cleanOf evs).filter (fun r => r.user_id = u)).length TOP_K
      then 1 else 0 := by
  have hL : (emittedOf evs).countP (fun r => r.user_id = u ∧ r.rank = k) =
      ((userGroup (cleanOf evs) u).filter (fun i =>
        rankOf (cleanOf evs) i ≤ TOP_K ∧ rankOf (cleanOf evs) i = k)).card := by
    unfold emittedOf truncate rankedOf rankRows
    rw [List.countP_filter, List.countP_map, countP_range_card]
    unfold userGroup
    rw [Finset.filter_filter]
    apply congrArg Finset.card
    apply Finset.filter_congr
    intro i _
    simp only [Function.comp_apply, Bool.and_eq_true, decide_eq_true_eq]
    constructor
    · rintro ⟨⟨h1, h2⟩, h3⟩
      exact ⟨h1, h3, h2⟩
    · rintro ⟨h1, h2, h3⟩
      exact ⟨⟨h1, h3⟩, h2⟩
  have hR : ((cleanOf evs).filter (fun r => r.user_id = u)).length =
      (userGroup (cleanOf evs) u).card := by
    rw [← List.countP_eq_length_filter]
    conv_lhs => rw [← map_getD_range (cleanOf evs)]
    rw [List.countP_map, countP_range_card]
    unfold userGroup
    apply congrArg Finset.card
    apply Finset.filter_congr
    intro i _
    simp [userAt]
  rw [hL, hR, group_count_rank_trunc]

/-- Claim C4 (counterexample): two equal-scored items for user 1, with the
pair (1, "7") appearing before (1, "5") in the event input; the code
nevertheless gives item 5 rank 1 and item 7 rank 2, because the groupby
emits keys sorted by object_id, not in first-seen order. -/
theorem C4_counterexample :
    fetchEvents [⟨some 1, "view_product", "7", "product"⟩,
        ⟨some 1, "view_product", "5", "product"⟩] =
      [⟨1, "view_product", "7"⟩, ⟨1, "view_product", "5"⟩] ∧
    rankedOf [⟨some 1, "view_product", "7", "product"⟩,
        ⟨some 1, "view_product", "5", "product"⟩] =
      [⟨1, 5, 1, 1⟩, ⟨1, 7, 1, 2⟩] := by decide

/-- Claim C4 (amended): tie-breaking is deterministic but keyed by the
aggregated table's order, which is sorted ascending by (user_id, raw
object_id) — not by first appearance in the event input: among equal-scored
rows of one user, the earlier row of the (sorted) feature table gets the
smaller rank. -/
theorem C4_amended_tiebreak (evs : List Event) :
    List.Sorted keyLE ((featuresOf evs).map (fun r => (r.user_id, r.object_id))) ∧
    ∀ i j : Nat, i < j → j < (cleanOf evs).length →
      userAt (cleanOf evs) i = userAt (cleanOf evs) j →
      weightAt (cleanOf evs) i = weightAt (cleanOf evs) j →
      rankOf (cleanOf evs) i < rankOf (cleanOf evs) j := by
  constructor
  · have hmap : (featuresOf evs).map (fun r => (r.user_id, r.object_id)) =
        groupKeys (fetchEvents evs) := by
      unfold featuresOf aggregate
      rw [List.map_map]
      have hid : ((fun r : FeatureRow => (r.user_id, r.object_id)) ∘
          (fun k : Int × String =>
            (⟨k.1, k.2, sumWeights (fetchEvents evs) k⟩ : FeatureRow))) = id := by
        funext k
        rfl
      rw [hid, List.map_id]
    rw [hmap]
    exact List.sorted_insertionSort keyLE _
  · intro i j hij hj hu hw
    exact rankOf_lt_rankOf (cleanOf evs) (hij.trans hj) hj hu (Or.inr ⟨hw, hij⟩)

/-- Claim C4 (witness): the amended tie-break applied to the concrete
two-event run, rows 0 and 1 of the clean table. -/
theorem C4_amended_tiebreak_witness :
    rankOf (cleanOf [⟨some 1, "view_product", "7", "product"⟩,
        ⟨some 1, "view_product", "5", "product"⟩]) 0 <
      rankOf (cleanOf [⟨some 1, "view_product", "7", "product"⟩,
        ⟨some 1, "view_product", "5", "product"⟩]) 1 :=
  (C4_amended_tiebreak _).2 0 1 (by decide) (by decide) (by decide) (by decide)

/-! ### Enrichment and persistence -/

theorem mem_enrichRow {r : RankedRow} {products : List Product} {t : Nat} {x : RecoRow}
    (hx : x ∈ enrichRow r products t) :
    x.user_id = r.user_id ∧ x.product_id = r.product_id ∧ x.weight = r.weight ∧
      x.rank = r.rank ∧ x.model_version = MODEL_VERSION ∧ x.created_at = t := by
  unfold enrichRow at hx
  by_cases h : (products.filter (fun p => p.id = r.product_id)).isEmpty
  · rw [if_pos h] at hx
    rw [List.mem_singleton] at hx
    subst hx
    exact ⟨rfl, rfl, rfl, rfl, rfl, rfl⟩
  · rw [if_neg h] at hx
    obtain ⟨p, _, rfl⟩ := List.mem_map.1 hx
    exact ⟨rfl, rfl, rfl, rfl, rfl, rfl⟩

theorem length_enrichRow (r : RankedRow) (products : List Product) (t : Nat) :
    (enrichRow r products t).length =
      max 1 (products.countP (fun p => p.id = r.product_id)) := by
  unfold enrichRow
  by_cases h : (products.filter (fun p => p.id = r.product_id)).isEmpty
  · rw [if_pos h]
    have hz : products.countP (fun p => p.id = r.product_id) = 0 := by
      rw [List.countP_eq_length_filter, List.isEmpty_iff.1 h]
      rfl
    rw [hz]
    rfl
  · rw [if_neg h, List.length_map, ← List.countP_eq_length_filter]
    have hpos : 0 < products.countP (fun p => p.id = r.product_id) := by
      rw [List.countP_eq_length_filter]
      cases hfil : products.filter (fun p => p.id = r.product_id) with
      | nil => exact absurd (by rw [hfil]; rfl) h
      | cons a l => simp
    omega

theorem countP_flatMap_enrich (l : List RankedRow) (products : List Product) (t : Nat)
    (u pid : Int) :
    (l.flatMap (fun r => enrichRow r products t)).countP
        (fun x => x.user_id = u ∧ x.product_id = pid) =
      l.countP (fun r => r.user_id = u ∧ r.product_id = pid) *
        max 1 (products.countP (fun p => p.id = pid)) := by
  induction l with
  | nil => simp
  | cons r l ih =>
      rw [List.flatMap_cons, List.countP_append, List.countP_cons, ih]
      by_cases h : r.user_id = u ∧ r.product_id = pid
      · have hall : (enrichRow r products t).countP
            (fun x => x.user_id = u ∧ x.product_id = pid) =
            (enrichRow r products t).length := by
          apply List.countP_eq_length.2
          intro x hx
          have hm := mem_enrichRow hx
          simp only [decide_eq_true_eq]
          exact ⟨hm.1.trans h.1, hm.2.1.trans h.2⟩
        rw [hall, length_enrichRow, h.2]
        have hp : decide (r.user_id = u ∧ pid = pid) = true := by
          simp [h.1]
        rw [if_pos hp]
        ring
      · have hz : (enrichRow r products t).countP
            (fun x => x.user_id = u ∧ x.product_id = pid) = 0 := by
          apply List.countP_eq_zero.2
          intro x hx
          have hm := mem_enrichRow hx
          simp only [decide_eq_true_eq]
          intro hcon
          exact h ⟨hm.1.symm.trans hcon.1, hm.2.1.symm.trans hcon.2⟩
        have hp : (decide (r.user_id = u ∧ r.product_id = pid)) = false := by
          simp only [decide_eq_false_iff_not]
          exact h
        rw [hz, hp]
        simp

/-- Claim C10: each emitted ranked row for a (user, item) pair contributes
max(1, m) published rows, m being the number of catalog rows with that id —
one all-null-metadata row when no product matches, one row per matching
product otherwise (so duplicate catalog ids multiply the pair's rows and can
push a user past TOP_K published rows). -/
theorem C10_join_multiplicity (evs : List Event) (products : List Product) (t : Nat)
    (u pid : Int) :
    (finalOf evs products t).countP (fun x => x.user_id = u ∧ x.product_id = pid) =
      (emittedOf evs).countP (fun r => r.user_id = u ∧ r.product_id = pid) *
        max 1 (products.countP (fun p => p.id = pid)) ∧
    ∀ x ∈ finalOf evs products t,
      products.countP (fun p => p.id = x.product_id) = 0 →
      x.name = none ∧ x.category = none ∧ x.price = none := by
  constructor
  · exact countP_flatMap_enrich (emittedOf evs) products t u pid
  · intro x hx hz
    obtain ⟨r, -, hxr⟩ := List.mem_flatMap.1 hx
    have hpid := (mem_enrichRow hxr).2.1
    have hempty : (products.filter (fun p => p.id = r.product_id)).isEmpty := by
      rw [hpid] at hz
      rw [List.countP_eq_length_filter] at hz
      rw [List.isEmpty_iff]
      exact List.length_eq_zero.1 hz
    unfold enrichRow at hxr
    rw [if_pos hempty, List.mem_singleton] at hxr
    subst hxr
    exact ⟨rfl, rfl, rfl⟩

/-- Claim C10 (witness): one emitted pair, empty catalog: exactly one
published row, with null metadata. -/
theorem C10_join_multiplicity_witness :
    ((finalOf [⟨some 1, "view_product", "5", "product"⟩] [] 0).countP
        (fun x => x.user_id = 1 ∧ x.product_id = 5) =
      (emittedOf [⟨some 1, "view_product", "5", "product"⟩]).countP
        (fun r => r.user_id = 1 ∧ r.product_id = 5) *
        max 1 (([] : List Product).countP (fun p => p.id = 5))) ∧
    ((⟨1, 5, 1, 1, none, none, none, "v1_weighted_events", 0⟩ : RecoRow).name = none ∧
      (⟨1, 5, 1, 1, none, none, none, "v1_weighted_events", 0⟩ : RecoRow).category = none ∧
      (⟨1, 5, 1, 1, none, none, none, "v1_weighted_events", 0⟩ : RecoRow).price = none) :=
  ⟨(C10_join_multiplicity [⟨some 1, "view_product", "5", "product"⟩] [] 0 1 5).1,
   (C10_join_multiplicity [⟨some 1, "view_product", "5", "product"⟩] [] 0 1 5).2
     ⟨1, 5, 1, 1, none, none, none, "v1_weighted_events", 0⟩ (by decide) (by decide)⟩

/-- Claim C1 (counterexample): the publish step does not restrict its delete
to the current run's model_version: a pre-existing row of a different version
("v0") is gone from the store after the run completes. -/
theorem C1_counterexample :
    (⟨1, 2, 3, 1, none, none, none, "v0", 0⟩ : RecoRow) ∈
        ([⟨1, 2, 3, 1, none, none, none, "v0", 0⟩] : List RecoRow) ∧
    (⟨1, 2, 3, 1, none, none, none, "v0", 0⟩ : RecoRow).model_version ≠ MODEL_VERSION ∧
    (⟨1, 2, 3, 1, none, none, none, "v0", 0⟩ : RecoRow) ∉
      publishRun [⟨1, 2, 3, 1, none, none, none, "v0", 0⟩]
        [⟨some 9, "view_product", "4", "product"⟩] [] 0 := by decide

/-- Claim C1 (amended): `to_sql(if_exists="replace")` replaces the whole
table: after a run the store holds exactly the run's own rows, every one of
which carries the current MODEL_VERSION — pre-existing rows of any other
model_version are deleted, not preserved. -/
theorem C1_amended_replace (store : List RecoRow) (evs : List Event)
    (products : List Product) (t : Nat) :
    publishRun store evs products t = finalOf evs products t ∧
    ∀ x ∈ publishRun store evs products t, x.model_version = MODEL_VERSION := by
  refine ⟨rfl, ?_⟩
  intro x hx
  obtain ⟨r, -, hxr⟩ := List.mem_flatMap.1 hx
  exact (mem_enrichRow hxr).2.2.2.2.1

/-- Claim C1 (witness): the amended statement applied at a concrete store
holding a "v0" row and a concrete run. -/
theorem C1_amended_replace_witness :
    (⟨1, 5, 1, 1, none, none, none, "v1_weighted_events", 0⟩ : RecoRow).model_version =
      MODEL_VERSION :=
  (C1_amended_replace [⟨1, 2, 3, 1, none, none, none, "v0", 0⟩]
      [⟨some 1, "view_product", "5", "product"⟩] [] 0).2
    ⟨1, 5, 1, 1, none, none, none, "v1_weighted_events", 0⟩ (by decide)

/-- Claim C2: publish is idempotent on the store and, more strongly, its
result does not depend on the pre-existing store at all: re-running with
identical inputs and the same model version leaves exactly the single-run
state — one generation of rows, no duplicates, no stale leftovers. -/
theorem C2_idempotent_publish (store s1 s2 : List RecoRow) (evs : List Event)
    (products : List Product) (t : Nat) :
    publishRun (publishRun store evs products t) evs products t =
      publishRun store evs products t ∧
    publishRun s1 evs products t = publishRun s2 evs products t :=
  ⟨rfl, rfl⟩

/-- Claim C9 (counterexample): with mail credentials configured and a failing
send, the run terminates with the uncaught SMTP error — a notification
failure does fail the pipeline run. -/
theorem C9_counterexample :
    runPipeline [] [⟨some 1, "view_product", "5", "product"⟩] [] 0 true false =
      RunResult.failed (finalOf [⟨some 1, "view_product", "5", "product"⟩] [] 0) := rfl

/-- Claim C9 (amended): the write completes before notification, so the store
a run leaves behind is exactly the published rows whatever the mail outcome;
but a mail failure with credentials configured is not caught: the run ends in
failure instead of being swallowed. -/
theorem C9_amended_mail_failure (store : List RecoRow) (evs : List Event)
    (products : List Product) (t : Nat) (creds mailOk : Bool) :
    storeAfter (runPipeline store evs products t creds mailOk) =
      publishRun store evs products t ∧
    (creds = true → mailOk = false →
      runPipeline store evs products t creds mailOk =
        RunResult.failed (publishRun store evs products t)) := by
  constructor
  · by_cases h : (creds && !mailOk) = true <;>
      simp [runPipeline, h, storeAfter, publishRun]
  · intro hc hm
    subst hc
    subst hm
    rfl

/-- Claim C9 (witness): the amended statement with credentials set and a
failing mailer on a concrete run over a concrete pre-existing store. -/
theorem C9_amended_mail_failure_witness :
    runPipeline [⟨1, 2, 3, 1, none, none, none, "v0", 0⟩]
        [⟨some 1, "view_product", "5", "product"⟩] [] 0 true false =
      RunResult.failed (publishRun [⟨1, 2, 3, 1, none, none, none, "v0", 0⟩]
        [⟨some 1, "view_product", "5", "product"⟩] [] 0) :=
  (C9_amended_mail_failure [⟨1, 2, 3, 1, none, none, none, "v0", 0⟩]
      [⟨some 1, "view_product", "5", "product"⟩] [] 0 true false).2 rfl rfl
